import Mathlib

/-!
Verification of the chunked-ingestion / storage / resilient-fetch pipeline.

Shallow embedding of the Python sources:
- `fs/api.py` : XOR stream cipher (`get_encryption_key`, `encrypt_data`,
  `decrypt_data`) and the upload merge endpoint (`merge_chunks`).
- `ALL/utils.py` : sequential chunk writer (`download_file_in_chunks`),
  `count_existing_chunks`, `assemble_chunks`.
- `konachan/api.py` : the retrying page fetcher (`get_data`).

Bytes are modelled as `List Nat` with values `< 256` where it matters;
file systems as explicit structures; the HTTP layer as oracle inputs.
-/

namespace FsApi

/-- Key stretching loop of `get_encryption_key` (fs/api.py):
`while len(key) < 32: key = key + key`.  The loop is embedded with a fuel
argument; fuel 32 is enough for any nonempty secret (each step at least
doubles a positive length).  For the empty secret the Python loop never
terminates, so all theorems assume a nonempty secret. -/
def stretchKey : Nat → List Nat → List Nat
  | 0, key => key
  | fuel + 1, key => if key.length < 32 then stretchKey fuel (key ++ key) else key

/-- `get_encryption_key` (fs/api.py): stretch `settings.SECRET_KEY` by
self-concatenation to at least 32 bytes, then truncate to 32 (`key[:32]`).
The secret is passed explicitly as its byte list. -/
def get_encryption_key (secret : List Nat) : List Nat :=
  (stretchKey 32 secret).take 32

/-- The XOR loop shared by `encrypt_data` and `decrypt_data`:
`for i, byte in enumerate(data): out.append(byte ^ key[i % len(key)])`,
with the enumeration index threaded explicitly (both call sites start at 0). -/
def xorKeyFrom (key : List Nat) : Nat → List Nat → List Nat
  | _, [] => []
  | i, b :: rest => (b ^^^ key.getD (i % key.length) 0) :: xorKeyFrom key (i + 1) rest

/-- The base64 alphabet used by `base64.b64encode`/`b64decode`. -/
def b64Alphabet : List Char :=
  "ABCDEFGHIJKLMNOPQRSTUVWXYZabcdefghijklmnopqrstuvwxyz0123456789+/".data

/-- Character for a 6-bit group. -/
def b64chr (n : Nat) : Char := b64Alphabet.getD n 'A'

/-- 6-bit value of a base64 character (its index in the alphabet). -/
def b64val (c : Char) : Nat := b64Alphabet.indexOf c

/-- `base64.b64encode`: standard base64 of a byte list, with `=` padding. -/
def b64encodeBytes : List Nat → List Char
  | a :: b :: c :: rest =>
    b64chr (a / 4) :: b64chr (a % 4 * 16 + b / 16) ::
      b64chr (b % 16 * 4 + c / 64) :: b64chr (c % 64) :: b64encodeBytes rest
  | [a, b] => [b64chr (a / 4), b64chr (a % 4 * 16 + b / 16), b64chr (b % 16 * 4), '=']
  | [a] => [b64chr (a / 4), b64chr (a % 4 * 16), '=', '=']
  | [] => []

/-- `base64.b64decode` on well-formed input (4-character groups, `=` padding).
Inputs that are not a sequence of 4-character groups raise `binascii.Error`
in Python; here the trailing malformed group decodes to `[]`. -/
def b64decodeChars : List Char → List Nat
  | c1 :: c2 :: c3 :: c4 :: rest =>
    if c3 = '=' then [b64val c1 * 4 + b64val c2 / 16]
    else if c4 = '=' then [b64val c1 * 4 + b64val c2 / 16, b64val c2 % 16 * 16 + b64val c3 / 4]
    else (b64val c1 * 4 + b64val c2 / 16) :: (b64val c2 % 16 * 16 + b64val c3 / 4) ::
      (b64val c3 % 4 * 64 + b64val c4) :: b64decodeChars rest
  | _ => []

/-- `encrypt_data` (fs/api.py lines 47-62): XOR the input bytes against the
repeating 32-byte key, starting at keystream position 0, then base64-encode
and decode to `str`. -/
def encrypt_data (secret : List Nat) (data : List Nat) : String :=
  String.mk (b64encodeBytes (xorKeyFrom (get_encryption_key secret) 0 data))

/-- `decrypt_data` (fs/api.py lines 64-79): base64-decode, then XOR against
the same repeating key, starting again at keystream position 0. -/
def decrypt_data (secret : List Nat) (encrypted : String) : List Nat :=
  xorKeyFrom (get_encryption_key secret) 0 (b64decodeChars encrypted.data)

theorem stretchKey_length (fuel : Nat) :
    ∀ key : List Nat, 0 < key.length → 32 ≤ key.length + fuel →
      32 ≤ (stretchKey fuel key).length := by
  induction fuel with
  | zero =>
    intro key hpos hle
    simpa [stretchKey] using hle
  | succ n ih =>
    intro key hpos hle
    by_cases h : key.length < 32
    · have := ih (key ++ key) (by simpa using hpos) (by simp; omega)
      simpa [stretchKey, h] using this
    · simpa [stretchKey, h] using Nat.le_of_not_lt h

theorem get_encryption_key_length {secret : List Nat} (h : secret ≠ []) :
    (get_encryption_key secret).length = 32 := by
  have hpos : 0 < secret.length := List.length_pos.mpr h
  have h32 : 32 ≤ (stretchKey 32 secret).length :=
    stretchKey_length 32 secret hpos (by omega)
  simp [get_encryption_key]
  omega

theorem stretchKey_mem_lt (fuel : Nat) :
    ∀ key : List Nat, (∀ b ∈ key, b < 256) → ∀ b ∈ stretchKey fuel key, b < 256 := by
  induction fuel with
  | zero => intro key h; simpa [stretchKey] using h
  | succ n ih =>
    intro key h b hb
    by_cases hl : key.length < 32
    · refine ih (key ++ key) ?_ b ?_
      · intro x hx
        rcases List.mem_append.mp hx with hx' | hx' <;> exact h x hx'
      · simpa [stretchKey, hl] using hb
    · exact h b (by simpa [stretchKey, hl] using hb)

theorem get_encryption_key_mem_lt {secret : List Nat} (h : ∀ b ∈ secret, b < 256) :
    ∀ b ∈ get_encryption_key secret, b < 256 := by
  intro b hb
  exact stretchKey_mem_lt 32 secret h b (List.take_subset 32 _ hb)

theorem getD_lt_256 {key : List Nat} (h : ∀ b ∈ key, b < 256) (i : Nat) :
    key.getD i 0 < 256 := by
  induction key generalizing i with
  | nil => simp [List.getD]
  | cons a l ih =>
    cases i with
    | zero => exact h a (by simp)
    | succ j =>
      have := ih (fun b hb => h b (by simp [hb])) j
      simpa [List.getD] using this

theorem xorKeyFrom_involutive (key : List Nat) :
    ∀ (l : List Nat) (i : Nat), xorKeyFrom key i (xorKeyFrom key i l) = l := by
  intro l
  induction l with
  | nil => intro i; simp [xorKeyFrom]
  | cons b rest ih =>
    intro i
    simp [xorKeyFrom, ih (i + 1), Nat.xor_assoc]

theorem xorKeyFrom_mem_lt {key : List Nat} (hk : ∀ b ∈ key, b < 256) :
    ∀ (l : List Nat), (∀ b ∈ l, b < 256) → ∀ i, ∀ b ∈ xorKeyFrom key i l, b < 256 := by
  intro l
  induction l with
  | nil => intro _ i b hb; simp [xorKeyFrom] at hb
  | cons a rest ih =>
    intro h i b hb
    simp only [xorKeyFrom, List.mem_cons] at hb
    rcases hb with hb | hb
    · subst hb
      have h1 : a < 2 ^ 8 := h a (by simp)
      have h2 : key.getD (i % key.length) 0 < 2 ^ 8 := getD_lt_256 hk _
      have := Nat.xor_lt_two_pow h1 h2
      simpa using this
    · exact ih (fun x hx => h x (by simp [hx])) (i + 1) b hb

theorem b64val_b64chr : ∀ n < 64, b64val (b64chr n) = n := by decide

theorem b64chr_ne_eq : ∀ n < 64, b64chr n ≠ '=' := by decide

theorem b64_roundtrip : ∀ l : List Nat, (∀ b ∈ l, b < 256) →
    b64decodeChars (b64encodeBytes l) = l
  | [] => by intro; simp [b64encodeBytes, b64decodeChars]
  | [a] => by
    intro h
    have ha : a < 256 := h a (by simp)
    have h1 : b64chr (a / 4) ≠ '=' := b64chr_ne_eq _ (by omega)
    have v1 : b64val (b64chr (a / 4)) = a / 4 := b64val_b64chr _ (by omega)
    have v2 : b64val (b64chr (a % 4 * 16)) = a % 4 * 16 := b64val_b64chr _ (by omega)
    simp [b64encodeBytes, b64decodeChars, v1, v2]
    omega
  | [a, b] => by
    intro h
    have ha : a < 256 := h a (by simp)
    have hb : b < 256 := h b (by simp)
    have h3 : b64chr (b % 16 * 4) ≠ '=' := b64chr_ne_eq _ (by omega)
    have v1 : b64val (b64chr (a / 4)) = a / 4 := b64val_b64chr _ (by omega)
    have v2 : b64val (b64chr (a % 4 * 16 + b / 16)) = a % 4 * 16 + b / 16 :=
      b64val_b64chr _ (by omega)
    have v3 : b64val (b64chr (b % 16 * 4)) = b % 16 * 4 := b64val_b64chr _ (by omega)
    simp [b64encodeBytes, b64decodeChars, h3, v1, v2, v3]
    constructor
    · omega
    · omega
  | a :: b :: c :: rest => by
    intro h
    have ha : a < 256 := h a (by simp)
    have hb : b < 256 := h b (by simp)
    have hc : c < 256 := h c (by simp)
    have ih := b64_roundtrip rest (fun x hx => h x (by simp [hx]))
    have h3 : b64chr (b % 16 * 4 + c / 64) ≠ '=' := b64chr_ne_eq _ (by omega)
    have h4 : b64chr (c % 64) ≠ '=' := b64chr_ne_eq _ (by omega)
    have v1 : b64val (b64chr (a / 4)) = a / 4 := b64val_b64chr _ (by omega)
    have v2 : b64val (b64chr (a % 4 * 16 + b / 16)) = a % 4 * 16 + b / 16 :=
      b64val_b64chr _ (by omega)
    have v3 : b64val (b64chr (b % 16 * 4 + c / 64)) = b % 16 * 4 + c / 64 :=
      b64val_b64chr _ (by omega)
    have v4 : b64val (b64chr (c % 64)) = c % 64 := b64val_b64chr _ (by omega)
    simp [b64encodeBytes, b64decodeChars, h3, h4, v1, v2, v3, v4, ih]
    refine ⟨by omega, by omega, by omega⟩

end FsApi

/-- C2: for every byte string (including empty and non-ASCII bytes),
`decrypt_data (encrypt_data x) = x` under the same process-wide key, and
`encrypt_data` is deterministic (no per-call nonce; the keystream position
restarts at 0 in every call). -/
theorem c2_cipher_involution (secret data : List Nat) (hne : secret ≠ [])
    (hsec : ∀ b ∈ secret, b < 256) (hdata : ∀ b ∈ data, b < 256) :
    FsApi.decrypt_data secret (FsApi.encrypt_data secret data) = data ∧
      FsApi.encrypt_data secret data = FsApi.encrypt_data secret data := by
  refine ⟨?_, rfl⟩
  have hk : ∀ b ∈ FsApi.get_encryption_key secret, b < 256 :=
    FsApi.get_encryption_key_mem_lt hsec
  have henc : ∀ b ∈ FsApi.xorKeyFrom (FsApi.get_encryption_key secret) 0 data, b < 256 :=
    FsApi.xorKeyFrom_mem_lt hk data hdata 0
  unfold FsApi.decrypt_data FsApi.encrypt_data
  rw [show (String.mk (FsApi.b64encodeBytes
        (FsApi.xorKeyFrom (FsApi.get_encryption_key secret) 0 data))).data =
      FsApi.b64encodeBytes (FsApi.xorKeyFrom (FsApi.get_encryption_key secret) 0 data) from rfl]
  rw [FsApi.b64_roundtrip _ henc]
  exact FsApi.xorKeyFrom_involutive _ data 0

/-- Witness for C2 at a concrete secret and a concrete non-ASCII byte string. -/
theorem c2_cipher_involution_witness :
    FsApi.decrypt_data [115, 51, 99] (FsApi.encrypt_data [115, 51, 99] [0, 255, 10, 128]) =
      [0, 255, 10, 128] :=
  (c2_cipher_involution [115, 51, 99] [0, 255, 10, 128] (by decide) (by decide) (by decide)).1

namespace AllUtils

/-- The tunable download constants of `ALL/configLoader.py` (section
`download` of `config.ini`). -/
structure Config where
  chunkSizeSmall : Nat
  threshold : Nat
  countSmall : Nat
  readChunkSize : Nat

/-- The shipped defaults: `chunk_size_small = 1048576`,
`chunk_size_threshold = 1048576`, `chunk_count_small = 3`,
`read_chunk_size = 8192`. -/
def defaultConfig : Config :=
  { chunkSizeSmall := 1048576, threshold := 1048576, countSmall := 3, readChunkSize := 8192 }

/-- Chunk-size selection of `download_file_in_chunks` (ALL/utils.py lines
146-161): `if file_size and file_size < CHUNK_SIZE_THRESHOLD:
chunk_size = math.ceil(file_size / CHUNK_COUNT_SMALL) else CHUNK_SIZE_SMALL`.
`none` models an absent Content-Length header; note that a known size of 0
is falsy in Python, so it takes the `else` branch.  `math.ceil` over float
division is exact at these magnitudes and is modelled as `(s + c - 1) / c`. -/
def chooseChunkSize (cfg : Config) (fileSize : Option Nat) : Nat :=
  match fileSize with
  | some s =>
    if s ≠ 0 ∧ s < cfg.threshold then (s + cfg.countSmall - 1) / cfg.countSmall
    else cfg.chunkSizeSmall
  | none => cfg.chunkSizeSmall

/-- `response.iter_content(chunk_size=sz)`: the body is yielded in pieces of
exactly `sz` bytes with a final shorter piece.  Fuel-based embedding of the
streaming loop; `splitSize` supplies sufficient fuel. -/
def splitSizeAux (sz : Nat) : Nat → List Nat → List (List Nat)
  | _, [] => []
  | 0, l => [l]
  | fuel + 1, l => l.take sz :: splitSizeAux sz fuel (l.drop sz)

def splitSize (sz : Nat) (l : List Nat) : List (List Nat) :=
  splitSizeAux sz l.length l

/-- The inner `while len(current_chunk_data) >= chunk_size` flush loop of
`download_file_in_chunks` (ALL/utils.py lines 175-186): repeatedly emit a
full `csz`-byte chunk and keep the remainder.  Fuel-based; `flushBuffer`
supplies sufficient fuel. -/
def flushAux (csz : Nat) : Nat → List Nat → List (List Nat) × List Nat
  | 0, buf => ([], buf)
  | fuel + 1, buf =>
    if 0 < csz ∧ csz ≤ buf.length then
      let r := flushAux csz fuel (buf.drop csz)
      (buf.take csz :: r.1, r.2)
    else ([], buf)

def flushBuffer (csz : Nat) (buf : List Nat) : List (List Nat) × List Nat :=
  flushAux csz buf.length buf

/-- The accumulate-and-flush write loop of `download_file_in_chunks`
(ALL/utils.py lines 163-194): for each piece read from the stream, append it
to the buffer and flush full chunks; once the stream ends, flush the final
shorter chunk if the buffer is nonempty.  `acc` is the list of chunk file
contents written so far (chunk `k` of the run is written to
`{fileId}.part{k}`, with `k` equal to the number of previously written
chunks). -/
def writeLoop (csz : Nat) : List (List Nat) → List Nat → List (List Nat) → List (List Nat)
  | [], buf, acc => if buf.isEmpty then acc else acc ++ [buf]
  | p :: rest, buf, acc =>
    if p.isEmpty then writeLoop csz rest buf acc
    else
      let fl := flushBuffer csz (buf ++ p)
      writeLoop csz rest fl.2 (acc ++ fl.1)

theorem splitSizeAux_fuel_irrel (sz : Nat) (hsz : 0 < sz) :
    ∀ (f1 : Nat) (l : List Nat) (f2 : Nat), l.length ≤ f1 → l.length ≤ f2 →
      splitSizeAux sz f1 l = splitSizeAux sz f2 l := by
  intro f1
  induction f1 with
  | zero =>
    intro l f2 h1 _
    have : l = [] := List.length_eq_zero.mp (by omega)
    subst this
    cases f2 <;> simp [splitSizeAux]
  | succ n ih =>
    intro l f2 h1 h2
    cases l with
    | nil => cases f2 <;> simp [splitSizeAux]
    | cons a t =>
      cases f2 with
      | zero => simp at h2
      | succ m =>
        simp only [splitSizeAux]
        congr 1
        simp only [List.length_cons] at h1 h2
        refine ih _ m ?_ ?_ <;> · simp only [List.length_drop, List.length_cons]; omega

theorem splitSize_nil (sz : Nat) : splitSize sz [] = [] := rfl

theorem splitSize_cons (sz : Nat) (hsz : 0 < sz) (l : List Nat) (hl : l ≠ []) :
    splitSize sz l = l.take sz :: splitSize sz (l.drop sz) := by
  unfold splitSize
  cases hlen : l.length with
  | zero => exact absurd (List.length_eq_zero.mp hlen) hl
  | succ n =>
    cases l with
    | nil => simp at hlen
    | cons a t =>
      simp only [splitSizeAux]
      congr 1
      simp only [List.length_cons] at hlen
      refine splitSizeAux_fuel_irrel sz hsz n _ _ ?_ ?_ <;>
        · simp only [List.length_drop, List.length_cons]; omega

theorem splitSize_small (sz : Nat) (hsz : 0 < sz) (l : List Nat) (hl : l ≠ [])
    (hle : l.length ≤ sz) : splitSize sz l = [l] := by
  rw [splitSize_cons sz hsz l hl, List.take_of_length_le hle, List.drop_eq_nil_of_le hle]
  rfl

theorem splitSize_flatten (sz : Nat) (hsz : 0 < sz) :
    ∀ (fuel : Nat) (l : List Nat), l.length ≤ fuel → (splitSize sz l).flatten = l := by
  intro fuel
  induction fuel with
  | zero =>
    intro l h
    have : l = [] := List.length_eq_zero.mp (by omega)
    subst this; rfl
  | succ n ih =>
    intro l h
    by_cases hl : l = []
    · subst hl; rfl
    · rw [splitSize_cons sz hsz l hl]
      have := ih (l.drop sz) (by simp [List.length_drop]; omega)
      simp [List.flatten, this]

theorem flushAux_spec (csz : Nat) (hsz : 0 < csz) :
    ∀ (fuel : Nat) (b : List Nat), b.length ≤ fuel →
      (flushAux csz fuel b).2.length < csz ∧
      ∀ t : List Nat, splitSize csz (b ++ t) =
        (flushAux csz fuel b).1 ++ splitSize csz ((flushAux csz fuel b).2 ++ t) := by
  intro fuel
  induction fuel with
  | zero =>
    intro b h
    have : b = [] := List.length_eq_zero.mp (by omega)
    subst this
    exact ⟨by simpa [flushAux] using hsz, fun t => by simp [flushAux]⟩
  | succ n ih =>
    intro b h
    by_cases hcond : csz ≤ b.length
    · have hb : b ≠ [] := by
        intro hb; subst hb; simp at hcond; omega
      have hdrop : (b.drop csz).length ≤ n := by simp [List.length_drop]; omega
      obtain ⟨ih1, ih2⟩ := ih (b.drop csz) hdrop
      constructor
      · simpa [flushAux, hsz, hcond] using ih1
      · intro t
        have hne : b ++ t ≠ [] := by simp [hb]
        rw [splitSize_cons csz hsz (b ++ t) hne,
          List.take_append_of_le_length hcond, List.drop_append_of_le_length hcond]
        simp only [flushAux, hsz, hcond, and_self, if_true, List.cons_append]
        congr 1
        exact ih2 t
    · refine ⟨?_, fun t => ?_⟩
      · simp [flushAux, hcond]; omega
      · simp [flushAux, hcond]

theorem writeLoop_spec (csz : Nat) (hsz : 0 < csz) :
    ∀ (pieces : List (List Nat)) (buf : List Nat) (acc : List (List Nat)),
      buf.length < csz →
      writeLoop csz pieces buf acc = acc ++ splitSize csz (buf ++ pieces.flatten) := by
  intro pieces
  induction pieces with
  | nil =>
    intro buf acc hbuf
    by_cases hb : buf = []
    · subst hb; simp [writeLoop, splitSize_nil]
    · have hsmall : splitSize csz buf = [buf] := splitSize_small csz hsz buf hb (by omega)
      simp [writeLoop, hb, hsmall, List.isEmpty_iff]
  | cons p rest ih =>
    intro buf acc hbuf
    by_cases hp : p = []
    · subst hp
      simp only [writeLoop, List.isEmpty_nil, if_true]
      rw [ih buf acc hbuf]
      simp
    · obtain ⟨h1, h2⟩ := flushAux_spec csz hsz (buf ++ p).length (buf ++ p) (le_refl _)
      simp only [writeLoop, List.isEmpty_iff, hp, if_false, flushBuffer]
      rw [ih _ _ h1, List.append_assoc]
      congr 1
      have hassoc : buf ++ (p :: rest).flatten = (buf ++ p) ++ rest.flatten := by
        simp [List.append_assoc]
      rw [hassoc, h2 rest.flatten]

/-- The full effect of the accumulate-and-flush loop: the chunk files
written are exactly the `csz`-sized slices of the payload (final slice
shorter), independent of the streaming read increment. -/
theorem writeLoop_eq_splitSize (csz rsz : Nat) (hsz : 0 < csz) (hrsz : 0 < rsz)
    (payload : List Nat) :
    writeLoop csz (splitSize rsz payload) [] [] = splitSize csz payload := by
  rw [writeLoop_spec csz hsz _ [] [] (by simpa using hsz)]
  simp [splitSize_flatten rsz hrsz payload.length payload (le_refl _)]

end AllUtils

namespace AllUtils

/-- Content of a small sidecar text file as seen by a `'r'`-mode read:
either its decoded text, or `corrupt` when opening/decoding raises
(`IOError`/`UnicodeDecodeError`/`ValueError` — all caught and ignored by
`assemble_chunks`). -/
inductive FileContent where
  | txt (s : String)
  | corrupt
deriving DecidableEq

/-- The slice of one `base_dir` that belongs to one `file_id`:
`parts i` is the content of `{file_id}.part{i}` (or `none` if absent),
`extFile` the `{file_id}.ext` sidecar, `legacyFile` the file named exactly
`{file_id}`.  Distinct indices name distinct files because the decimal
suffix determines the index.  `bound` with `hbound` witnesses that only
finitely many chunk files exist (true of any real directory), and gives the
probe loops their fuel. -/
structure ChunkDir where
  parts : Nat → Option (List Nat)
  extFile : Option FileContent
  legacyFile : Option FileContent
  bound : Nat
  hbound : ∀ i, bound ≤ i → parts i = none

def emptyDir : ChunkDir :=
  { parts := fun _ => none, extFile := none, legacyFile := none,
    bound := 0, hbound := fun _ _ => rfl }

/-- Writing chunk file `{file_id}.part{i}` (`open(path, 'wb')` truncates). -/
def ChunkDir.writePart (d : ChunkDir) (i : Nat) (c : List Nat) : ChunkDir :=
  { parts := fun j => if j = i then some c else d.parts j,
    extFile := d.extFile, legacyFile := d.legacyFile,
    bound := max d.bound (i + 1),
    hbound := by
      intro j hj
      have hmax : d.bound ≤ j ∧ i + 1 ≤ j := by
        constructor <;> omega
      have := d.hbound j hmax.1
      simp only [this]
      have : j ≠ i := by omega
      simp [this] }

/-- Sequential chunk writes at indices `start, start+1, …`, mirroring the
loop of `download_file_in_chunks` which increments `chunk_index` after each
write. -/
def writePartsFrom : ChunkDir → List (List Nat) → Nat → ChunkDir
  | d, [], _ => d
  | d, c :: cs, i => writePartsFrom (d.writePart i c) cs (i + 1)

/-- Writing the `{file_id}.ext` sidecar (`open(ext_file, 'w')`). -/
def ChunkDir.setExt (d : ChunkDir) (fc : FileContent) : ChunkDir :=
  { d with extFile := some fc }

/-- Decimal digit character. -/
def digitChar : Nat → Char
  | 0 => '0' | 1 => '1' | 2 => '2' | 3 => '3' | 4 => '4'
  | 5 => '5' | 6 => '6' | 7 => '7' | 8 => '8' | _ => '9'

/-- Decimal rendering of a natural number (the `str(chunk_index)` inside the
f-string), most significant digit first.  Fuel-based; `n + 1` is enough. -/
def natDigitsAux : Nat → Nat → List Char
  | 0, _ => []
  | fuel + 1, n => if n < 10 then [digitChar n] else natDigitsAux fuel (n / 10) ++ [digitChar (n % 10)]

def natDecimal (n : Nat) : List Char := natDigitsAux (n + 1) n

/-- `f"{file_id}.part{chunk_index}"`. -/
def chunkName (fid : String) (i : Nat) : String :=
  fid ++ ".part" ++ String.mk (natDecimal i)

/-- `str.rfind('.')`: index of the last `'.'`, scanning left to right and
keeping the latest hit. -/
def lastDotAux : List Char → Nat → Option Nat → Option Nat
  | [], _, acc => acc
  | c :: rest, i, acc => lastDotAux rest (i + 1) (if c = '.' then some i else acc)

/-- `pathlib.PurePath.stem`: the name without its suffix, where the suffix
is `name[i:]` for `i = name.rfind('.')` only when `0 < i < len(name) - 1`. -/
def pathStem (s : String) : String :=
  match lastDotAux s.data 0 none with
  | some i => if 0 < i ∧ i < s.data.length - 1 then String.mk (s.data.take i) else s
  | none => s

/-- First index at which `sep` occurs as a sublist (`str.find` for the
separator scan of `str.split`). -/
def findSubAux (sep : List Char) : List Char → Nat → Option Nat
  | [], i => if sep.isEmpty then some i else none
  | c :: rest, i =>
    if sep.isPrefixOf (c :: rest) then some i else findSubAux sep rest (i + 1)

def findSub (sep l : List Char) : Option Nat := findSubAux sep l 0

/-- `str.split(sep)` for a nonempty separator.  Fuel-based; `splitSub`
supplies sufficient fuel. -/
def splitSubAux (sep : List Char) : Nat → List Char → List (List Char)
  | 0, l => [l]
  | fuel + 1, l =>
    match findSub sep l with
    | none => [l]
    | some i => l.take i :: splitSubAux sep fuel (l.drop (i + sep.length))

def splitSub (sep l : List Char) : List (List Char) :=
  splitSubAux sep (l.length + 1) l

/-- `int(s)` restricted to unsigned decimal digit strings; any other string
raises `ValueError` in Python, which `get_chunk_index` catches. -/
def digitVal (c : Char) : Option Nat :=
  if c.isDigit then some (c.toNat - 48) else none

def parseDigitsAux : List Char → Nat → Option Nat
  | [], acc => some acc
  | c :: rest, acc =>
    match digitVal c with
    | some d => parseDigitsAux rest (acc * 10 + d)
    | none => none

def parseDigits : List Char → Option Nat
  | [] => none
  | l => parseDigitsAux l 0

/-- `get_chunk_index` (ALL/utils.py lines 312-317):
`int(chunk_path.stem.split('.part')[1])`, with any `ValueError`/`IndexError`
mapped to 0.  Note `[1]` is the second element of the split, and `stem`
already removed the final `.partN` suffix, so for a dot-free `file_id` the
split has a single element and the result is always 0. -/
def get_chunk_index (name : String) : Nat :=
  match splitSub ".part".data (pathStem name).data with
  | _ :: second :: _ => (parseDigits second).getD 0
  | _ => 0

/-- Stable insertion sort: extensionally equal to Python's stable
`sorted(..., key=...)`/`list.sort(key=...)` for a total preorder key. -/
def insertStable {α : Type} (le : α → α → Bool) (a : α) : List α → List α
  | [] => [a]
  | b :: bs => if le a b then a :: b :: bs else b :: insertStable le a bs

def pySorted {α : Type} (le : α → α → Bool) : List α → List α
  | [] => []
  | a :: rest => insertStable le a (pySorted le rest)

/-- The chunk enumeration loop of `assemble_chunks` (ALL/utils.py lines
271-280) and of `count_existing_chunks` (lines 221-239): probe
`{file_id}.part{k}` for k = 0, 1, … until the first missing index.  Each
collected entry keeps the probe index (used to read the file back) together
with the file name it was appended under (used by the sort key). -/
def collectAux (d : ChunkDir) (fid : String) : Nat → Nat → List (Nat × String)
  | 0, _ => []
  | fuel + 1, i =>
    if (d.parts i).isSome then (i, chunkName fid i) :: collectAux d fid fuel (i + 1)
    else []

def collectChunkFiles (d : ChunkDir) (fid : String) : List (Nat × String) :=
  collectAux d fid (d.bound + 1) 0

/-- `count_existing_chunks` (ALL/utils.py lines 221-239). -/
def count_existing_chunks (d : ChunkDir) (fid : String) : Nat :=
  (collectChunkFiles d fid).length

/-- `str.strip()`: remove leading and trailing whitespace. -/
def isSpaceChar (c : Char) : Bool :=
  c = ' ' ∨ c = '\t' ∨ c = '\n' ∨ c = '\r' ∨ c = '\x0b' ∨ c = '\x0c'

def pyStrip (s : String) : String :=
  String.mk (((s.data.dropWhile isSpaceChar).reverse.dropWhile isSpaceChar).reverse)

/-- `content.startswith('.')`. -/
def startsWithDot (s : String) : Bool :=
  match s.data with
  | c :: _ => c = '.'
  | [] => false

/-- Extension resolution of `assemble_chunks` (ALL/utils.py lines 285-309):
default `.jpg`; try the `{file_id}.ext` sidecar (stripped content must start
with `'.'` and have length < 10); if the extension is still `.jpg`, try the
legacy sidecar named exactly `{file_id}` under the same constraint.  Read
errors are swallowed. -/
def resolveExt (d : ChunkDir) : String :=
  let e1 : String :=
    match d.extFile with
    | some (.txt s) =>
      if startsWithDot (pyStrip s) ∧ (pyStrip s).length < 10 then pyStrip s else ".jpg"
    | _ => ".jpg"
  if e1 = ".jpg" then
    match d.legacyFile with
    | some (.txt s) =>
      if startsWithDot (pyStrip s) ∧ (pyStrip s).length < 10 then pyStrip s else ".jpg"
    | _ => ".jpg"
  else e1

inductive ChunkError where
  | noChunks
deriving DecidableEq

/-- `assemble_chunks` (ALL/utils.py lines 242-325), single-directory call
(`date_dirs=None`): enumerate contiguous chunk files, fail with `ChunkError`
if there are none, resolve the extension, sort the collected files by
`get_chunk_index` (Python's stable sort), and concatenate their contents. -/
def assemble_chunks (d : ChunkDir) (fid : String) :
    Except ChunkError (List Nat × String) :=
  let chunkFiles := collectChunkFiles d fid
  if chunkFiles.isEmpty then .error .noChunks
  else
    let ext := resolveExt d
    let sorted := pySorted
      (fun a b => decide (get_chunk_index a.2 ≤ get_chunk_index b.2)) chunkFiles
    .ok (sorted.foldl (fun acc p => acc ++ (d.parts p.1).getD []) [], ext)

/-- An HTTP response as consumed by `download_file_in_chunks`:
the optional `Content-Length` value and the body bytes.  (`int(cl) if cl
else None` makes a present header of `"0"` yield `some 0`.) -/
structure NetResp where
  contentLength : Option Nat
  body : List Nat

structure DLResult where
  ok : Bool
  chunkCount : Nat
  errors : List String
deriving DecidableEq

/-- `download_file_in_chunks` (ALL/utils.py lines 89-218).  `resp = none`
models `requests.get`/`raise_for_status` raising.  `urlExt` stands for
`os.path.splitext(url)[1]`.  The returned `Bool` records whether the
network was contacted.  Write errors (disk full etc.) are not modelled. -/
def download_file_in_chunks (cfg : Config) (d : ChunkDir) (fid : String)
    (resp : Option NetResp) (fileExt : Option String) (urlExt : String) :
    ChunkDir × DLResult × Bool :=
  let fe : String :=
    match fileExt with
    | some s => if s = "" then (if urlExt = "" then ".jpg" else urlExt) else s
    | none => if urlExt = "" then ".jpg" else urlExt
  if (d.parts 0).isSome then
    (d, ⟨true, count_existing_chunks d fid, []⟩, false)
  else
    match resp with
    | none => (d, ⟨false, 0, ["download failed"]⟩, true)
    | some r =>
      let csz := chooseChunkSize cfg r.contentLength
      let chunks := writeLoop csz (splitSize cfg.readChunkSize r.body) [] []
      let d1 := writePartsFrom d chunks 0
      let d2 := if fe ≠ "" then d1.setExt (.txt fe) else d1
      (d2, ⟨true, chunks.length, []⟩, true)

end AllUtils

namespace AllUtils

theorem digitChar_ne_dot (d : Nat) : digitChar d ≠ '.' := by
  unfold digitChar
  split <;> decide

theorem natDigitsAux_mem (fuel : Nat) :
    ∀ (n : Nat) (c : Char), c ∈ natDigitsAux fuel n → ∃ d, c = digitChar d := by
  induction fuel with
  | zero => intro n c hc; simp [natDigitsAux] at hc
  | succ k ih =>
    intro n c hc
    by_cases h : n < 10
    · simp [natDigitsAux, h] at hc
      exact ⟨n, hc⟩
    · simp only [natDigitsAux, h, if_false, List.mem_append, List.mem_singleton] at hc
      rcases hc with hc | hc
      · exact ih _ c hc
      · exact ⟨n % 10, hc⟩

theorem natDecimal_no_dot (n : Nat) : '.' ∉ natDecimal n := by
  intro h
  obtain ⟨d, hd⟩ := natDigitsAux_mem (n + 1) n '.' h
  exact digitChar_ne_dot d hd.symm

theorem natDecimal_ne_nil (n : Nat) : natDecimal n ≠ [] := by
  unfold natDecimal natDigitsAux
  by_cases h : n < 10 <;> simp [h]

theorem lastDotAux_append (l1 l2 : List Char) :
    ∀ (i : Nat) (acc : Option Nat),
      lastDotAux (l1 ++ l2) i acc = lastDotAux l2 (i + l1.length) (lastDotAux l1 i acc) := by
  induction l1 with
  | nil => intro i acc; simp [lastDotAux]
  | cons c t ih =>
    intro i acc
    show lastDotAux (t ++ l2) (i + 1) (if c = '.' then some i else acc) =
      lastDotAux l2 (i + (t.length + 1)) (lastDotAux t (i + 1) (if c = '.' then some i else acc))
    rw [ih]
    have harith : i + 1 + t.length = i + (t.length + 1) := by omega
    rw [harith]

theorem lastDotAux_no_dot (l : List Char) (h : '.' ∉ l) :
    ∀ (i : Nat) (acc : Option Nat), lastDotAux l i acc = acc := by
  induction l with
  | nil => intro i acc; rfl
  | cons c t ih =>
    intro i acc
    have hc : c ≠ '.' := fun hc => h (by simp [hc])
    have ht : '.' ∉ t := fun ht => h (by simp [ht])
    simp [lastDotAux, hc, ih ht]

theorem chunkName_data (fid : String) (i : Nat) :
    (chunkName fid i).data = fid.data ++ ('.' :: 'p' :: 'a' :: 'r' :: 't' :: natDecimal i) := by
  show (fid ++ ".part" ++ String.mk (natDecimal i)).data = _
  rw [String.data_append, String.data_append, List.append_assoc]
  congr 1

theorem data_ne_nil_of_ne_empty {s : String} (h : s ≠ "") : s.data ≠ [] := by
  intro hd
  apply h
  cases s with
  | mk l =>
    cases hd
    rfl

theorem pathStem_chunkName (fid : String) (hfid : fid ≠ "") (hdot : '.' ∉ fid.data)
    (i : Nat) : pathStem (chunkName fid i) = fid := by
  have hlen : 0 < fid.data.length :=
    List.length_pos.mpr (data_ne_nil_of_ne_empty hfid)
  have htail : '.' ∉ ('p' :: 'a' :: 'r' :: 't' :: natDecimal i) := by
    intro h
    simp only [List.mem_cons] at h
    rcases h with h | h | h | h | h
    · exact absurd h.symm (by decide)
    · exact absurd h.symm (by decide)
    · exact absurd h.symm (by decide)
    · exact absurd h.symm (by decide)
    · exact natDecimal_no_dot i h
  have hdotidx : lastDotAux (chunkName fid i).data 0 none = some fid.data.length := by
    rw [chunkName_data, lastDotAux_append]
    rw [lastDotAux_no_dot fid.data hdot]
    simp only [lastDotAux]
    rw [lastDotAux_no_dot _ (natDecimal_no_dot i)]
    simp
  have hlen2 : (chunkName fid i).data.length =
      fid.data.length + 5 + (natDecimal i).length := by
    rw [chunkName_data, List.length_append]
    simp only [List.length_cons]
    omega
  have hne : (natDecimal i).length ≠ 0 := by
    simpa [List.length_eq_zero] using natDecimal_ne_nil i
  unfold pathStem
  simp only [hdotidx]
  have hcond : 0 < fid.data.length ∧ fid.data.length < (chunkName fid i).data.length - 1 := by
    constructor
    · exact hlen
    · omega
  rw [if_pos hcond, chunkName_data, List.take_append_of_le_length (le_refl _)]
  rw [List.take_length]

theorem findSubAux_dotpart_none (l : List Char) (h : '.' ∉ l) :
    ∀ i : Nat, findSubAux (".part".data) l i = none := by
  induction l with
  | nil => intro i; rfl
  | cons c t ih =>
    intro i
    have hc : c ≠ '.' := fun hc => h (by simp [hc])
    have ht : '.' ∉ t := fun ht => h (by simp [ht])
    have hpre : (".part".data).isPrefixOf (c :: t) = false := by
      show (('.' : Char) :: 'p' :: 'a' :: 'r' :: 't' :: []).isPrefixOf (c :: t) = false
      simp [List.isPrefixOf]
      intro hcc
      exact absurd hcc.symm hc
    simp [findSubAux, hpre, ih ht]

theorem splitSub_no_dot (l : List Char) (h : '.' ∉ l) :
    splitSub (".part".data) l = [l] := by
  have hfind : findSub (".part".data) l = none := findSubAux_dotpart_none l h 0
  simp [splitSub, splitSubAux, hfind]

theorem get_chunk_index_chunkName (fid : String) (hfid : fid ≠ "")
    (hdot : '.' ∉ fid.data) (i : Nat) : get_chunk_index (chunkName fid i) = 0 := by
  unfold get_chunk_index
  rw [pathStem_chunkName fid hfid hdot i, splitSub_no_dot fid.data hdot]

theorem insertStable_all_le {α : Type} (le : α → α → Bool) (a : α) :
    ∀ l : List α, (∀ b ∈ l, le a b = true) → insertStable le a l = a :: l := by
  intro l h
  cases l with
  | nil => rfl
  | cons b bs => simp [insertStable, h b (by simp)]

theorem pySorted_eq_self {α : Type} (le : α → α → Bool) :
    ∀ l : List α, (∀ a ∈ l, ∀ b ∈ l, le a b = true) → pySorted le l = l := by
  intro l
  induction l with
  | nil => intro _; rfl
  | cons a rest ih =>
    intro h
    have hrest := ih (fun x hx y hy => h x (by simp [hx]) y (by simp [hy]))
    simp only [pySorted, hrest]
    exact insertStable_all_le le a rest (fun b hb => h a (by simp) b (by simp [hb]))

theorem writePartsFrom_parts :
    ∀ (cs : List (List Nat)) (d : ChunkDir) (s j : Nat),
      (writePartsFrom d cs s).parts j =
        if s ≤ j ∧ j < s + cs.length then some (cs.getD (j - s) []) else d.parts j := by
  intro cs
  induction cs with
  | nil =>
    intro d s j
    have h : ¬(s ≤ j ∧ j < s + ([] : List (List Nat)).length) := by
      simp only [List.length_nil]; omega
    simp only [writePartsFrom]
    rw [if_neg h]
  | cons c cs ih =>
    intro d s j
    simp only [writePartsFrom, ih]
    by_cases hj : j = s
    · have h1 : ¬(s + 1 ≤ j ∧ j < s + 1 + cs.length) := by omega
      have h2 : s ≤ j ∧ j < s + (c :: cs).length := by
        simp only [List.length_cons]; omega
      have h3 : j - s = 0 := by omega
      simp [h1, h2, h3, ChunkDir.writePart, hj]
    · by_cases hin : s + 1 ≤ j ∧ j < s + 1 + cs.length
      · have hsub : j - s = (j - (s + 1)) + 1 := by omega
        have ha : s ≤ j := by omega
        have hb : j < s + (cs.length + 1) := by omega
        simp [hin, hsub, ha, hb]
      · have hc : ¬(s ≤ j ∧ j < s + (cs.length + 1)) := by omega
        simp [hin, ChunkDir.writePart, hj, hc]

theorem writePartsFrom_bound :
    ∀ (cs : List (List Nat)) (d : ChunkDir) (s : Nat), cs ≠ [] →
      s + cs.length ≤ (writePartsFrom d cs s).bound := by
  intro cs
  induction cs with
  | nil => intro d s h; exact absurd rfl h
  | cons c cs ih =>
    intro d s _
    cases hcs : cs with
    | nil =>
      show s + (c :: ([] : List (List Nat))).length ≤ (d.writePart s c).bound
      simp only [List.length_cons, List.length_nil]
      exact Nat.le_max_right _ _
    | cons c2 cs2 =>
      have hrec := ih (d.writePart s c) (s + 1) (by rw [hcs]; exact List.cons_ne_nil _ _)
      rw [hcs] at hrec
      simp only [writePartsFrom, List.length_cons] at hrec ⊢
      omega

theorem writePartsFrom_sidecars :
    ∀ (cs : List (List Nat)) (d : ChunkDir) (s : Nat),
      (writePartsFrom d cs s).extFile = d.extFile ∧
        (writePartsFrom d cs s).legacyFile = d.legacyFile := by
  intro cs
  induction cs with
  | nil => intro d s; exact ⟨rfl, rfl⟩
  | cons c cs ih =>
    intro d s
    exact ih (d.writePart s c) (s + 1)

end AllUtils

namespace AllUtils

theorem collectAux_eq (d : ChunkDir) (fid : String) (n : Nat)
    (hco : ∀ j, (d.parts j).isSome = true ↔ j < n) :
    ∀ (fuel i : Nat), i ≤ n → n ≤ i + fuel →
      collectAux d fid fuel i =
        (List.range' i (n - i)).map (fun k => (k, chunkName fid k)) := by
  intro fuel
  induction fuel with
  | zero =>
    intro i h1 h2
    have hi : i = n := by omega
    subst hi
    simp [collectAux, Nat.sub_self]
  | succ f ih =>
    intro i h1 h2
    by_cases hi : i < n
    · have hsome : (d.parts i).isSome = true := (hco i).mpr hi
      have hn : n - i = (n - (i + 1)) + 1 := by omega
      rw [hn, List.range'_succ]
      simp only [collectAux, hsome, if_true, List.map_cons]
      congr 1
      exact ih (i + 1) (by omega) (by omega)
    · have hi2 : i = n := by omega
      subst hi2
      cases hpn : d.parts i with
      | none => simp [collectAux, hpn, Nat.sub_self]
      | some v =>
        exact absurd ((hco i).mp (by simp [hpn])) (by omega)

theorem collectChunkFiles_eq (d : ChunkDir) (fid : String) (n : Nat)
    (hco : ∀ j, (d.parts j).isSome = true ↔ j < n) :
    collectChunkFiles d fid = (List.range' 0 n).map (fun k => (k, chunkName fid k)) := by
  have hbnd : n ≤ d.bound + 1 := by
    cases n with
    | zero => omega
    | succ m =>
      by_cases h : d.bound ≤ m
      · have := d.hbound m h
        have := (hco m).mpr (by omega)
        rw [‹d.parts m = none›] at this
        simp at this
      · omega
  have := collectAux_eq d fid n hco (d.bound + 1) 0 (by omega) (by omega)
  simpa [collectChunkFiles] using this

theorem count_existing_chunks_eq (d : ChunkDir) (fid : String) (n : Nat)
    (hco : ∀ j, (d.parts j).isSome = true ↔ j < n) :
    count_existing_chunks d fid = n := by
  unfold count_existing_chunks
  rw [collectChunkFiles_eq d fid n hco]
  simp

theorem foldl_append_map {α : Type} (f : α → List Nat) :
    ∀ (xs : List α) (acc : List Nat),
      xs.foldl (fun a x => a ++ f x) acc = acc ++ (xs.map f).flatten := by
  intro xs
  induction xs with
  | nil => intro acc; simp
  | cons x xs ih =>
    intro acc
    simp [ih, List.append_assoc]

theorem map_getD_shift :
    ∀ (L : List (List Nat)) (s : Nat) (g : Nat → Option (List Nat)),
      (∀ k, g (s + k) = L[k]?) →
      (List.range' s L.length).map (fun k => (g k).getD []) = L := by
  intro L
  induction L with
  | nil => intro s g _; simp
  | cons a L ih =>
    intro s g h
    rw [List.length_cons, List.range'_succ, List.map_cons]
    have h0 : g s = some a := by
      have := h 0
      simpa using this
    rw [h0]
    simp only [Option.getD_some]
    congr 1
    refine ih (s + 1) g ?_
    intro k
    have := h (k + 1)
    rw [show s + 1 + k = s + (k + 1) by omega]
    simpa using this

theorem getElem?_isSome_iff (L : List (List Nat)) (j : Nat) :
    (L[j]?).isSome = true ↔ j < L.length := by
  by_cases h : j < L.length
  · simp [List.getElem?_eq_getElem h, h]
  · simp [List.getElem?_eq_none (by omega : L.length ≤ j)]
    omega

/-- Assembly of a directory whose chunk files are exactly `part0 … part(n-1)`
with contents `L`: the result is the concatenation of `L`, in index order. -/
theorem assemble_chunks_of_parts (d : ChunkDir) (fid : String) (L : List (List Nat))
    (hfid : fid ≠ "") (hdot : '.' ∉ fid.data)
    (hparts : ∀ j, d.parts j = L[j]?) (hL : L ≠ []) :
    assemble_chunks d fid = .ok (L.flatten, resolveExt d) := by
  have hco : ∀ j, (d.parts j).isSome = true ↔ j < L.length := by
    intro j
    rw [hparts j]
    exact getElem?_isSome_iff L j
  have hcollect := collectChunkFiles_eq d fid L.length hco
  have hlen : 0 < L.length := List.length_pos.mpr hL
  have hne : (collectChunkFiles d fid).isEmpty = false := by
    rw [hcollect]
    cases hL2 : L.length with
    | zero => omega
    | succ m => simp [List.range'_succ]
  have hkeys : ∀ p ∈ collectChunkFiles d fid, get_chunk_index p.2 = 0 := by
    intro p hp
    rw [hcollect] at hp
    obtain ⟨k, _, hk⟩ := List.mem_map.mp hp
    rw [← hk]
    exact get_chunk_index_chunkName fid hfid hdot k
  have hsorted : pySorted
      (fun a b => decide (get_chunk_index a.2 ≤ get_chunk_index b.2))
      (collectChunkFiles d fid) = collectChunkFiles d fid := by
    refine pySorted_eq_self _ _ ?_
    intro a ha b hb
    rw [hkeys a ha, hkeys b hb]
    decide
  simp only [assemble_chunks, hne, Bool.false_eq_true, if_false, hsorted]
  rw [foldl_append_map (fun p : Nat × String => (d.parts p.1).getD []), hcollect,
    List.map_map]
  have hmap : (List.range' 0 L.length).map (fun k => (d.parts k).getD []) = L := by
    refine map_getD_shift L 0 d.parts ?_
    intro k
    rw [Nat.zero_add]
    exact hparts k
  rw [show ((fun p : Nat × String => (d.parts p.1).getD []) ∘ fun k => (k, chunkName fid k))
      = (fun k => (d.parts k).getD []) from rfl]
  rw [hmap]
  simp

end AllUtils

namespace AllUtils

/-- Round trip through a fresh directory: downloading a nonempty payload and
re-assembling it recovers the payload exactly (with the default `.jpg`
extension recorded by the sidecar). -/
theorem roundtrip_fresh (cfg : Config) (fid : String) (payload : List Nat)
    (cl : Option Nat) (hfid : fid ≠ "") (hdot : '.' ∉ fid.data) (hp : payload ≠ [])
    (hread : 0 < cfg.readChunkSize) (hcsz : 0 < chooseChunkSize cfg cl) :
    assemble_chunks
      (download_file_in_chunks cfg emptyDir fid (some ⟨cl, payload⟩) none "").1 fid =
      .ok (payload, ".jpg") := by
  set csz := chooseChunkSize cfg cl with hcszdef
  have hchunks : writeLoop csz (splitSize cfg.readChunkSize payload) [] [] =
      splitSize csz payload := writeLoop_eq_splitSize csz cfg.readChunkSize hcsz hread payload
  have hflat : (splitSize csz payload).flatten = payload :=
    splitSize_flatten csz hcsz payload.length payload (le_refl _)
  have hLne : splitSize csz payload ≠ [] := by
    intro h
    rw [h] at hflat
    exact hp hflat.symm
  have hdl : (download_file_in_chunks cfg emptyDir fid (some ⟨cl, payload⟩) none "").1 =
      (writePartsFrom emptyDir
        (writeLoop csz (splitSize cfg.readChunkSize payload) [] []) 0).setExt
        (.txt ".jpg") := rfl
  rw [hdl, hchunks]
  set d1 := writePartsFrom emptyDir (splitSize csz payload) 0 with hd1
  have hparts : ∀ j, (d1.setExt (.txt ".jpg")).parts j = (splitSize csz payload)[j]? := by
    intro j
    show d1.parts j = _
    rw [hd1, writePartsFrom_parts]
    by_cases hj : j < (splitSize csz payload).length
    · have hcond : 0 ≤ j ∧ j < 0 + (splitSize csz payload).length := by omega
      rw [if_pos hcond]
      simp [List.getElem?_eq_getElem hj, List.getD_eq_getElem?_getD]
    · have hcond : ¬(0 ≤ j ∧ j < 0 + (splitSize csz payload).length) := by omega
      rw [if_neg hcond]
      simp [emptyDir, List.getElem?_eq_none (by omega : (splitSize csz payload).length ≤ j)]
  have hresolve : resolveExt (d1.setExt (.txt ".jpg")) = ".jpg" := by
    have hleg : d1.legacyFile = none := by
      rw [hd1, (writePartsFrom_sidecars (splitSize csz payload) emptyDir 0).2]
      rfl
    unfold resolveExt
    rw [show (d1.setExt (.txt ".jpg")).extFile = some (.txt ".jpg") from rfl,
      show (d1.setExt (.txt ".jpg")).legacyFile = d1.legacyFile from rfl, hleg]
    decide
  have hassemble := assemble_chunks_of_parts (d1.setExt (.txt ".jpg")) fid
    (splitSize csz payload) hfid hdot hparts hLne
  rw [hassemble, hflat, hresolve]

end AllUtils

/-- C1 (counterexample): the claim includes size 0, but after the writer
consumes an empty payload no chunk file exists, and `assemble_chunks` fails
with `ChunkError` instead of returning the empty byte sequence. -/
theorem c1_roundtrip_counterexample :
    AllUtils.assemble_chunks
      (AllUtils.download_file_in_chunks AllUtils.defaultConfig AllUtils.emptyDir "f"
        (some ⟨some 0, []⟩) none "").1 "f" = .error .noChunks := by
  rfl

/-- C1 (amended): for byte sequences of every size in
`{1, chunkSize-1, chunkSize, chunkSize+1, threshold-1, threshold, threshold*10}`
(size 0 excluded: there the writer stores no chunk file and assembly fails
with `ChunkError`), splitting by the sequential chunk writer and rejoining
with `assemble_chunks` yields exactly the original byte sequence.  With the
shipped constants the size set is `{1, 1048575, 1048576, 1048577, 10485760}`. -/
theorem c1_roundtrip_amended (fid : String) (payload : List Nat)
    (hfid : fid ≠ "") (hdot : '.' ∉ fid.data)
    (hsize : payload.length ∈ ([1, 1048575, 1048576, 1048577, 10485760] : List Nat)) :
    AllUtils.assemble_chunks
      (AllUtils.download_file_in_chunks AllUtils.defaultConfig AllUtils.emptyDir fid
        (some ⟨some payload.length, payload⟩) none "").1 fid = .ok (payload, ".jpg") := by
  have hp : payload ≠ [] := by
    intro h
    rw [h] at hsize
    simp at hsize
  refine AllUtils.roundtrip_fresh AllUtils.defaultConfig fid payload
    (some payload.length) hfid hdot hp (by norm_num [AllUtils.defaultConfig]) ?_
  simp only [List.mem_cons, List.not_mem_nil, or_false] at hsize
  rcases hsize with h | h | h | h | h <;>
    rw [h] <;> norm_num [AllUtils.chooseChunkSize, AllUtils.defaultConfig]

/-- Witness for C1 (amended) at a concrete one-byte payload. -/
theorem c1_roundtrip_amended_witness :
    AllUtils.assemble_chunks
      (AllUtils.download_file_in_chunks AllUtils.defaultConfig AllUtils.emptyDir "f"
        (some ⟨some 1, [42]⟩) none "").1 "f" = .ok ([42], ".jpg") :=
  c1_roundtrip_amended "f" [42] (by decide) (by decide) (by decide)

/-- C3 (counterexample): a known size of 4 bytes is below the threshold, yet
the writer produces 2 chunks (of the selected size `ceil(4/3) = 2`), not the
fixed `chunkCountSmall = 3` pieces the claim promises. -/
theorem c3_chunk_sizing_counterexample :
    (AllUtils.download_file_in_chunks AllUtils.defaultConfig AllUtils.emptyDir "f"
      (some ⟨some 4, [1, 2, 3, 4]⟩) none "").2.1.chunkCount = 2 ∧
    AllUtils.defaultConfig.countSmall = 3 := by
  constructor
  · rfl
  · rfl

/-- C3 (amended): when the size is known and `0 < size < threshold`, the
selected chunk size is `ceil(size / chunkCountSmall)` (the number of pieces
is then `ceil(size / chunkSize)`, which can be fewer than `chunkCountSmall`);
when the size is unknown, zero (falsy in Python), or `>= threshold` —
including exactly `threshold` — the fixed `CHUNK_SIZE_SMALL` constant is
used.  The payload is split into consecutive slices of the selected size
with a shorter final slice (`splitSize`), regardless of the streaming read
increment. -/
theorem c3_chunk_sizing_amended (cfg : AllUtils.Config) :
    (∀ s, 0 < s → s < cfg.threshold →
      AllUtils.chooseChunkSize cfg (some s) = (s + cfg.countSmall - 1) / cfg.countSmall) ∧
    (∀ s, cfg.threshold ≤ s →
      AllUtils.chooseChunkSize cfg (some s) = cfg.chunkSizeSmall) ∧
    AllUtils.chooseChunkSize cfg none = cfg.chunkSizeSmall ∧
    AllUtils.chooseChunkSize cfg (some 0) = cfg.chunkSizeSmall ∧
    (∀ (payload : List Nat) (cl : Option Nat), 0 < cfg.readChunkSize →
      0 < AllUtils.chooseChunkSize cfg cl →
      AllUtils.writeLoop (AllUtils.chooseChunkSize cfg cl)
          (AllUtils.splitSize cfg.readChunkSize payload) [] [] =
        AllUtils.splitSize (AllUtils.chooseChunkSize cfg cl) payload) := by
  refine ⟨?_, ?_, rfl, ?_, ?_⟩
  · intro s hs hlt
    have hne0 : s ≠ 0 := by omega
    simp [AllUtils.chooseChunkSize, hne0, hlt]
  · intro s hge
    have : ¬(s ≠ 0 ∧ s < cfg.threshold) := by omega
    simp [AllUtils.chooseChunkSize, this]
  · simp [AllUtils.chooseChunkSize]
  · intro payload cl hread hcsz
    exact AllUtils.writeLoop_eq_splitSize _ _ hcsz hread payload

/-- Witness for C3 (amended): concrete boundary sizes with the shipped
constants (`threshold = 1048576`, `countSmall = 3`). -/
theorem c3_chunk_sizing_amended_witness :
    AllUtils.chooseChunkSize AllUtils.defaultConfig (some 1048575) = 349525 ∧
    AllUtils.chooseChunkSize AllUtils.defaultConfig (some 1048576) = 1048576 ∧
    AllUtils.chooseChunkSize AllUtils.defaultConfig none = 1048576 := by
  have h := c3_chunk_sizing_amended AllUtils.defaultConfig
  refine ⟨?_, ?_, h.2.2.1⟩
  · rw [h.1 1048575 (by norm_num) (by norm_num [AllUtils.defaultConfig])]
    decide
  · rw [h.2.1 1048576 (by norm_num [AllUtils.defaultConfig])]
    decide

namespace AllUtils

/-- Concrete directory used by the C4 witness: chunk files `part0`, `part1`
exist, nothing else. -/
def twoChunkDir : ChunkDir :=
  { parts := fun j => if j < 2 then some [7] else none,
    extFile := none, legacyFile := none, bound := 2,
    hbound := by
      intro i hi
      have : ¬i < 2 := by omega
      simp [this] }

end AllUtils

/-- C4: if chunk file `{fileId}.part0` already exists, a call to
`download_file_in_chunks` performs no network I/O, mutates no files
(the directory is returned unchanged), and returns success with the number
of contiguous `.partN` files counted from index 0 until the first missing
index. -/
theorem c4_idempotent_download (cfg : AllUtils.Config) (d : AllUtils.ChunkDir)
    (fid : String) (resp : Option AllUtils.NetResp) (fileExt : Option String)
    (urlExt : String) (n : Nat) (h0 : (d.parts 0).isSome = true)
    (hco : ∀ j, (d.parts j).isSome = true ↔ j < n) :
    AllUtils.download_file_in_chunks cfg d fid resp fileExt urlExt =
      (d, ⟨true, n, []⟩, false) := by
  have hcount : AllUtils.count_existing_chunks d fid = n :=
    AllUtils.count_existing_chunks_eq d fid n hco
  simp [AllUtils.download_file_in_chunks, h0, hcount]

/-- Witness for C4 at a concrete two-chunk directory. -/
theorem c4_idempotent_download_witness :
    AllUtils.download_file_in_chunks AllUtils.defaultConfig AllUtils.twoChunkDir "f"
      none none "" = (AllUtils.twoChunkDir, ⟨true, 2, []⟩, false) :=
  c4_idempotent_download AllUtils.defaultConfig AllUtils.twoChunkDir "f" none none "" 2
    (by decide)
    (fun j => by
      by_cases h : j < 2 <;> simp [AllUtils.twoChunkDir, h])

namespace AllUtils

/-- The value a sidecar contributes under the acceptance test of
`assemble_chunks`: the stripped text if it starts with `'.'` and is shorter
than 10 characters, nothing for missing, unreadable, corrupt or invalid
sidecars. -/
def sidecarValue (fc : Option FileContent) : Option String :=
  match fc with
  | some (.txt s) =>
    if startsWithDot (pyStrip s) ∧ (pyStrip s).length < 10 then some (pyStrip s) else none
  | _ => none

/-- Directory with a valid dedicated sidecar containing `.jpg` and a valid
legacy sidecar containing `.png`. -/
def bothSidecarDir : ChunkDir :=
  { parts := fun j => if j = 0 then some [1] else none,
    extFile := some (.txt ".jpg"), legacyFile := some (.txt ".png"),
    bound := 1,
    hbound := by
      intro i hi
      have : ¬i = 0 := by omega
      simp [this] }

/-- Directory whose dedicated sidecar is unreadable/corrupt. -/
def corruptSidecarDir : ChunkDir :=
  { parts := fun j => if j = 0 then some [5] else none,
    extFile := some .corrupt, legacyFile := none,
    bound := 1,
    hbound := by
      intro i hi
      have : ¬i = 0 := by omega
      simp [this] }

end AllUtils

/-- C9 (counterexample): the dedicated sidecar of `bothSidecarDir` passes
the acceptance test with content `.jpg`, so by the claimed order (a) the
result should be `.jpg`; but the code cannot distinguish an explicit `.jpg`
from the default and still consults the legacy sidecar, returning `.png`. -/
theorem c9_ext_order_counterexample :
    (AllUtils.startsWithDot (AllUtils.pyStrip ".jpg") ∧
      (AllUtils.pyStrip ".jpg").length < 10) ∧
    AllUtils.resolveExt AllUtils.bothSidecarDir = ".png" := by
  constructor
  · decide
  · rfl

/-- C9 (amended): extension resolution consults (a) the dedicated
`{fileId}.ext` sidecar (stripped content must start with a dot and be
shorter than 10 characters), then (b) the legacy sidecar named `{fileId}`,
then (c) defaults to `.jpg` — except that a dedicated sidecar whose valid
content is exactly `.jpg` is indistinguishable from the default, so the
legacy sidecar is still consulted and may override it.  A missing,
unreadable, or corrupt sidecar never makes the assembly itself fail: with
chunk index 0 present, `assemble_chunks` succeeds for every sidecar state. -/
theorem c9_ext_resolution_amended (d : AllUtils.ChunkDir) (fid : String) :
    (AllUtils.resolveExt d =
      match AllUtils.sidecarValue d.extFile with
      | some s => if s ≠ ".jpg" then s else (AllUtils.sidecarValue d.legacyFile).getD ".jpg"
      | none => (AllUtils.sidecarValue d.legacyFile).getD ".jpg") ∧
    ((d.parts 0).isSome = true → (AllUtils.assemble_chunks d fid).isOk = true) := by
  constructor
  · have hlegacy : (match d.legacyFile with
        | some (.txt s) =>
          if AllUtils.startsWithDot (AllUtils.pyStrip s) ∧ (AllUtils.pyStrip s).length < 10
          then AllUtils.pyStrip s else ".jpg"
        | _ => ".jpg") = (AllUtils.sidecarValue d.legacyFile).getD ".jpg" := by
      rcases d.legacyFile with _ | fc
      · rfl
      · rcases fc with s | _
        · by_cases hc : AllUtils.startsWithDot (AllUtils.pyStrip s) ∧
              (AllUtils.pyStrip s).length < 10 <;>
            simp [AllUtils.sidecarValue, hc]
        · rfl
    unfold AllUtils.resolveExt
    rcases hext : d.extFile with _ | fc
    · simpa [AllUtils.sidecarValue] using hlegacy
    · rcases fc with s | _
      · by_cases hc : AllUtils.startsWithDot (AllUtils.pyStrip s) ∧
            (AllUtils.pyStrip s).length < 10
        · by_cases hj : AllUtils.pyStrip s = ".jpg"
          · simpa [AllUtils.sidecarValue, hc, hj] using hlegacy
          · simp [AllUtils.sidecarValue, hc, hj]
        · simpa [AllUtils.sidecarValue, hc] using hlegacy
      · simpa [AllUtils.sidecarValue] using hlegacy
  · intro h0
    have hne : (AllUtils.collectChunkFiles d fid).isEmpty = false := by
      unfold AllUtils.collectChunkFiles
      show (AllUtils.collectAux d fid (d.bound + 1) 0).isEmpty = false
      rw [show d.bound + 1 = d.bound + 1 from rfl]
      simp only [AllUtils.collectAux, h0, if_true]
      rfl
    simp only [AllUtils.assemble_chunks, hne, Bool.false_eq_true, if_false]
    rfl

/-- Witness for C9 (amended): a corrupt dedicated sidecar falls back to the
default `.jpg` and assembly still succeeds. -/
theorem c9_ext_resolution_amended_witness :
    AllUtils.resolveExt AllUtils.corruptSidecarDir = ".jpg" ∧
    (AllUtils.assemble_chunks AllUtils.corruptSidecarDir "f").isOk = true := by
  have h := c9_ext_resolution_amended AllUtils.corruptSidecarDir "f"
  exact ⟨by rw [h.1]; rfl, h.2 (by decide)⟩

namespace Konachan

/-- Outcome of one network attempt (`client.get` and the processing of its
response) as distinguished by `get_data` (konachan/api.py lines 110-258):
- `resp status emptyBody parses saveOk`: an HTTP response arrived;
  `parses` means `response.json()` succeeded with data that is not `None`,
  `saveOk` means `save_data` did not raise (a failing `save_data` re-raises
  and lands in the generic `except Exception` handler);
- `timeout` / `connError`: `requests.Timeout` / `requests.ConnectionError`;
- `reqError`: another `requests.RequestException`;
- `genError`: any other exception. -/
inductive AttemptOutcome where
  | resp (status : Nat) (emptyBody : Bool) (parses : Bool) (saveOk : Bool)
  | timeout
  | connError
  | reqError
  | genError

inductive HTTPAction where
  | retryWithReset
  | retryBackoff
  | failPage

/-- The `except requests.HTTPError` handler (konachan/api.py lines 199-231):
`status_code = getattr(e.response, 'status_code', None)`, then branch on
403 / `status_code and status_code >= 500` / otherwise.  `excStatus` is the
status attached to the exception object. -/
def classifyHTTPError (excStatus : Option Nat) : HTTPAction :=
  match excStatus with
  | some 403 => .retryWithReset
  | some c => if c ≠ 0 ∧ 500 ≤ c then .retryBackoff else .failPage
  | none => .failPage

/-- `delay = BASE_DELAY * 2 ** (retry_count - 1)` (after the increment). -/
def backoffDelay (baseD rc : Nat) : Nat := baseD * 2 ^ (rc - 1)

/-- Exit state of the per-page `while retry_count < MAX_RETRIES` loop:
whether `page_success` was set, how often `failed_pages` was incremented
inside the loop, the final `retry_count`, the backoff sleeps performed, the
number of `_reset_http_client()` calls, and the number of network requests. -/
structure LoopExit where
  pageSuccess : Bool
  failedInLoop : Nat
  rc : Nat
  sleeps : List Nat
  resets : Nat
  requests : Nat
deriving DecidableEq

/-- The retry loop of `get_data` for one page (konachan/api.py lines
110-258), embedded with fuel (`maxR + 1` suffices: every continuing
iteration increments `retry_count`).  `att` gives the outcome of the `k`-th
network attempt.  The only raise site for `requests.HTTPError` is
`raise requests.HTTPError(f"HTTP {status_code}: ...")` for a non-200
response; that constructor call attaches no response object, so the
handler's `getattr(e.response, 'status_code', None)` always yields `none`
— the embedding passes `none` to `classifyHTTPError` at that raise site. -/
def pageLoopAux (maxR baseD : Nat) (att : Nat → AttemptOutcome) :
    Nat → Nat → Nat → List Nat → Nat → Nat → LoopExit
  | 0, rc, _, sleeps, resets, reqs => ⟨false, 0, rc, sleeps, resets, reqs⟩
  | fuel + 1, rc, ai, sleeps, resets, reqs =>
    if rc < maxR then
      match att ai with
      | .resp status emptyBody parses saveOk =>
        if status ≠ 200 then
          match classifyHTTPError none with
          | .retryWithReset =>
            if rc + 1 < maxR then
              pageLoopAux maxR baseD att fuel (rc + 1) (ai + 1)
                (sleeps ++ [backoffDelay baseD (rc + 1)]) (resets + 1) (reqs + 1)
            else ⟨false, 1, rc + 1, sleeps, resets + 1, reqs + 1⟩
          | .retryBackoff =>
            if rc + 1 < maxR then
              pageLoopAux maxR baseD att fuel (rc + 1) (ai + 1)
                (sleeps ++ [backoffDelay baseD (rc + 1)]) resets (reqs + 1)
            else ⟨false, 1, rc + 1, sleeps, resets, reqs + 1⟩
          | .failPage => ⟨false, 1, rc, sleeps, resets, reqs + 1⟩
        else if emptyBody then ⟨false, 1, rc, sleeps, resets, reqs + 1⟩
        else if parses = false then ⟨false, 1, rc, sleeps, resets, reqs + 1⟩
        else if saveOk then ⟨true, 0, rc, sleeps, resets, reqs + 1⟩
        else
          if rc + 1 < maxR then
            pageLoopAux maxR baseD att fuel (rc + 1) (ai + 1)
              (sleeps ++ [backoffDelay baseD (rc + 1)]) resets (reqs + 1)
          else ⟨false, 0, rc + 1, sleeps, resets, reqs + 1⟩
      | .timeout | .connError | .reqError | .genError =>
        if rc + 1 < maxR then
          pageLoopAux maxR baseD att fuel (rc + 1) (ai + 1)
            (sleeps ++ [backoffDelay baseD (rc + 1)]) resets (reqs + 1)
        else ⟨false, 0, rc + 1, sleeps, resets, reqs + 1⟩
    else ⟨false, 0, rc, sleeps, resets, reqs⟩

/-- Result of processing one page, including the post-loop
`if not page_success and retry_count >= MAX_RETRIES: failed_pages += 1`. -/
structure PageOut where
  pageSuccess : Bool
  failedInc : Nat
  sleeps : List Nat
  resets : Nat
  requests : Nat
deriving DecidableEq

def processPage (maxR baseD : Nat) (att : Nat → AttemptOutcome) : PageOut :=
  let e := pageLoopAux maxR baseD att (maxR + 1) 0 0 [] 0 0
  { pageSuccess := e.pageSuccess,
    failedInc := e.failedInLoop +
      (if e.pageSuccess = false ∧ maxR ≤ e.rc then 1 else 0),
    sleeps := e.sleeps, resets := e.resets, requests := e.requests }

structure Stats where
  success : Nat
  failed : Nat
  total : Nat
deriving DecidableEq

/-- `get_data` (konachan/api.py lines 60-270): validate the `int`
parameters (positivity and `start_page <= end_page`), then process pages
`start_page .. end_page`, accumulating `success_pages` and `failed_pages`.
`oracle page k` is the outcome of the `k`-th attempt for `page`.  The
1-second inter-page sleep does not affect the returned statistics and is
not tracked. -/
def get_data (maxR baseD : Nat) (oracle : Int → Nat → AttemptOutcome)
    (startP endP limit : Int) : Stats :=
  if startP < 1 ∨ endP < 1 ∨ limit < 1 then ⟨0, 0, 0⟩
  else if endP < startP then ⟨0, 0, 0⟩
  else
    let n := (endP - startP + 1).toNat
    let outs := (List.range n).map
      (fun (k : Nat) => processPage maxR baseD (oracle (startP + (k : Int))))
    ⟨outs.foldl (fun acc o => acc + (if o.pageSuccess then 1 else 0)) 0,
      outs.foldl (fun acc o => acc + o.failedInc) 0, n⟩

theorem pageLoopAux_exclusive (maxR baseD : Nat) (att : Nat → AttemptOutcome) :
    ∀ (fuel rc ai : Nat) (sleeps : List Nat) (resets reqs : Nat), maxR ≤ fuel + rc →
      (pageLoopAux maxR baseD att fuel rc ai sleeps resets reqs).failedInLoop +
        (if (pageLoopAux maxR baseD att fuel rc ai sleeps resets reqs).pageSuccess = false ∧
            maxR ≤ (pageLoopAux maxR baseD att fuel rc ai sleeps resets reqs).rc
          then 1 else 0) =
        if (pageLoopAux maxR baseD att fuel rc ai sleeps resets reqs).pageSuccess
        then 0 else 1 := by
  intro fuel
  induction fuel with
  | zero =>
    intro rc ai sleeps resets reqs hinv
    have : maxR ≤ rc := by omega
    simp [pageLoopAux, this]
  | succ f ih =>
    intro rc ai sleeps resets reqs hinv
    by_cases hrc : rc < maxR
    · simp only [pageLoopAux, hrc, if_true]
      cases att ai with
      | resp status emptyBody parses saveOk =>
        have hnot : ¬(maxR ≤ rc) := by omega
        by_cases hst : status = 200
        · subst hst
          simp only [if_pos rfl]
          cases emptyBody with
          | true => simp [hnot]
          | false =>
            cases parses with
            | false => simp [hnot]
            | true =>
              cases saveOk with
              | true => simp
              | false =>
                simp only [Bool.true_eq_false, if_false, Bool.false_eq_true, if_true]
                by_cases hnext : rc + 1 < maxR
                · simp only [hnext, if_true]
                  exact ih (rc + 1) (ai + 1) _ resets (reqs + 1) (by omega)
                · have : maxR ≤ rc + 1 := by omega
                  simp [hnext, this]
        · simp [hst, hnot, classifyHTTPError]
      | timeout =>
        by_cases hnext : rc + 1 < maxR
        · simp only [pageLoopAux, hnext, if_true]
          exact ih (rc + 1) (ai + 1) _ resets (reqs + 1) (by omega)
        · have : maxR ≤ rc + 1 := by omega
          simp [pageLoopAux, hnext, this]
      | connError =>
        by_cases hnext : rc + 1 < maxR
        · simp only [pageLoopAux, hnext, if_true]
          exact ih (rc + 1) (ai + 1) _ resets (reqs + 1) (by omega)
        · have : maxR ≤ rc + 1 := by omega
          simp [pageLoopAux, hnext, this]
      | reqError =>
        by_cases hnext : rc + 1 < maxR
        · simp only [pageLoopAux, hnext, if_true]
          exact ih (rc + 1) (ai + 1) _ resets (reqs + 1) (by omega)
        · have : maxR ≤ rc + 1 := by omega
          simp [pageLoopAux, hnext, this]
      | genError =>
        by_cases hnext : rc + 1 < maxR
        · simp only [pageLoopAux, hnext, if_true]
          exact ih (rc + 1) (ai + 1) _ resets (reqs + 1) (by omega)
        · have : maxR ≤ rc + 1 := by omega
          simp [pageLoopAux, hnext, this]
    · have hle : maxR ≤ rc := by omega
      simp [pageLoopAux, hrc, hle]

theorem processPage_accounting (maxR baseD : Nat) (att : Nat → AttemptOutcome) :
    (processPage maxR baseD att).failedInc =
      if (processPage maxR baseD att).pageSuccess then 0 else 1 := by
  unfold processPage
  exact pageLoopAux_exclusive maxR baseD att (maxR + 1) 0 0 [] 0 0 (by omega)

theorem foldl_accounting :
    ∀ (outs : List PageOut) (a b : Nat),
      (∀ o ∈ outs, o.failedInc = if o.pageSuccess then 0 else 1) →
      outs.foldl (fun acc o => acc + (if o.pageSuccess then 1 else 0)) a +
        outs.foldl (fun acc o => acc + o.failedInc) b = a + b + outs.length := by
  intro outs
  induction outs with
  | nil => intro a b _; simp
  | cons o rest ih =>
    intro a b h
    simp only [List.foldl_cons, List.length_cons]
    rw [h o (by simp)]
    have := ih (a + (if o.pageSuccess then 1 else 0)) (b + (if o.pageSuccess then 0 else 1))
      (fun x hx => h x (by simp [hx]))
    rw [this]
    by_cases hs : o.pageSuccess <;> simp [hs] <;> omega

end Konachan

namespace Konachan

/-- The session is never recreated, whatever the outcomes: the exception at
the only `requests.HTTPError` raise site carries no response, so the
403-reset branch is unreachable. -/
theorem pageLoopAux_never_resets (maxR baseD : Nat) (att : Nat → AttemptOutcome) :
    ∀ (fuel rc ai : Nat) (sleeps : List Nat) (resets reqs : Nat),
      (pageLoopAux maxR baseD att fuel rc ai sleeps resets reqs).resets = resets := by
  intro fuel
  induction fuel with
  | zero => intro rc ai sleeps resets reqs; rfl
  | succ f ih =>
    intro rc ai sleeps resets reqs
    by_cases hrc : rc < maxR
    · simp only [pageLoopAux, hrc, if_true]
      cases att ai with
      | resp status emptyBody parses saveOk =>
        by_cases hst : status = 200
        · subst hst
          simp only [if_pos rfl]
          cases emptyBody with
          | true => rfl
          | false =>
            cases parses with
            | false => rfl
            | true =>
              cases saveOk with
              | true => rfl
              | false =>
                simp only [Bool.true_eq_false, if_false, Bool.false_eq_true, if_true]
                by_cases hnext : rc + 1 < maxR
                · simp only [hnext, if_true]
                  exact ih (rc + 1) (ai + 1) _ resets (reqs + 1)
                · simp [hnext]
        · simp [hst, classifyHTTPError]
      | timeout =>
        by_cases hnext : rc + 1 < maxR
        · simp only [pageLoopAux, hnext, if_true]
          exact ih (rc + 1) (ai + 1) _ resets (reqs + 1)
        · simp [pageLoopAux, hnext]
      | connError =>
        by_cases hnext : rc + 1 < maxR
        · simp only [pageLoopAux, hnext, if_true]
          exact ih (rc + 1) (ai + 1) _ resets (reqs + 1)
        · simp [pageLoopAux, hnext]
      | reqError =>
        by_cases hnext : rc + 1 < maxR
        · simp only [pageLoopAux, hnext, if_true]
          exact ih (rc + 1) (ai + 1) _ resets (reqs + 1)
        · simp [pageLoopAux, hnext]
      | genError =>
        by_cases hnext : rc + 1 < maxR
        · simp only [pageLoopAux, hnext, if_true]
          exact ih (rc + 1) (ai + 1) _ resets (reqs + 1)
        · simp [pageLoopAux, hnext]
    · simp [pageLoopAux, hrc]

theorem processPage_never_resets (maxR baseD : Nat) (att : Nat → AttemptOutcome) :
    (processPage maxR baseD att).resets = 0 :=
  pageLoopAux_never_resets maxR baseD att (maxR + 1) 0 0 [] 0 0

/-- A non-403 client error (404) fails the page immediately: one request,
no sleeps, no retries (shipped constants `MAX_RETRIES = 5`,
`BASE_DELAY = 5`).  This part of the retry policy works as specified. -/
theorem eval_404_fails_immediately :
    processPage 5 5 (fun _ => .resp 404 false true true) =
      { pageSuccess := false, failedInc := 1, sleeps := [], resets := 0, requests := 1 } := by
  decide

/-- Three consecutive timeouts followed by a success: the fetch succeeds on
the 4th attempt, having slept `BASE_DELAY, 2*BASE_DELAY, 4*BASE_DELAY`.
This part of the retry policy works as specified. -/
theorem eval_timeouts_then_success :
    processPage 5 5 (fun k => if k < 3 then .timeout else .resp 200 false true true) =
      { pageSuccess := true, failedInc := 0, sleeps := [5, 10, 20], resets := 0,
        requests := 4 } := by
  decide

end Konachan

/-- C5 (failing input): a page whose first attempt returns an HTTP 403
response.  The claim requires the session to be invalidated and the fetch
retried (bounded by `MAX_RETRIES = 5`), but `get_data` raises
`requests.HTTPError(message)` without attaching the response object, so the
handler's `getattr(e.response, 'status_code', None)` yields `None` and the
403 branch — with its `_reset_http_client()` call — is dead code: the page
fails immediately after a single request, with no session reset and no
backoff sleep. -/
theorem c5_403_no_reset_no_retry :
    Konachan.processPage 5 5 (fun _ => Konachan.AttemptOutcome.resp 403 false true true) =
      { pageSuccess := false, failedInc := 1, sleeps := [], resets := 0, requests := 1 } := by
  decide

/-- C6: `get_data` never aborts the batch on one page's failure, and each
page is accounted exactly once: `success + failed = total` with
`total = end_page - start_page + 1`, for every valid page range and every
combination of per-page outcomes. -/
theorem c6_batch_accounting (maxR baseD : Nat)
    (oracle : Int → Nat → Konachan.AttemptOutcome) (startP endP limit : Int)
    (h1 : 1 ≤ startP) (h2 : startP ≤ endP) (h3 : 1 ≤ limit) :
    (Konachan.get_data maxR baseD oracle startP endP limit).success +
      (Konachan.get_data maxR baseD oracle startP endP limit).failed =
      (Konachan.get_data maxR baseD oracle startP endP limit).total ∧
    (Konachan.get_data maxR baseD oracle startP endP limit).total =
      (endP - startP + 1).toNat := by
  have hv1 : ¬(startP < 1 ∨ endP < 1 ∨ limit < 1) := by omega
  have hv2 : ¬(endP < startP) := by omega
  unfold Konachan.get_data
  rw [if_neg hv1, if_neg hv2]
  refine ⟨?_, rfl⟩
  have hall : ∀ o ∈ (List.range (endP - startP + 1).toNat).map
      (fun (k : Nat) => Konachan.processPage maxR baseD (oracle (startP + (k : Int)))),
      o.failedInc = if o.pageSuccess then 0 else 1 := by
    intro o ho
    obtain ⟨k, _, hk⟩ := List.mem_map.mp ho
    rw [← hk]
    exact Konachan.processPage_accounting maxR baseD (oracle (startP + (k : Int)))
  have := Konachan.foldl_accounting _ 0 0 hall
  simpa using this

/-- Witness for C6: two pages that both exhaust their timeout retries are
both counted as failed, and `0 + 2 = 2` pages total. -/
theorem c6_batch_accounting_witness :
    (Konachan.get_data 5 5 (fun _ _ => Konachan.AttemptOutcome.timeout) 1 2 10).success +
      (Konachan.get_data 5 5 (fun _ _ => Konachan.AttemptOutcome.timeout) 1 2 10).failed =
      (Konachan.get_data 5 5 (fun _ _ => Konachan.AttemptOutcome.timeout) 1 2 10).total ∧
    (Konachan.get_data 5 5 (fun _ _ => Konachan.AttemptOutcome.timeout) 1 2 10).total =
      ((2 : Int) - 1 + 1).toNat :=
  c6_batch_accounting 5 5 (fun _ _ => Konachan.AttemptOutcome.timeout) 1 2 10
    (by decide) (by decide) (by decide)

namespace FsApi

/-- A file in the upload storage directory `{FS_MEDIA_ROOT}/{YYYYMMDD}/{md5}`:
binary content (uploaded chunk pieces, the merged file) or text content
(the base64 string of an encrypted thumbnail, written with `'w'`).  Reading
a text file in `'rb'` mode yields its bytes; for the ASCII base64 payloads
stored here these are the character codes. -/
inductive MFile where
  | bin (bytes : List Nat)
  | txt (s : String)
deriving DecidableEq

/-- A `FileInfo` row, restricted to the fields `merge_chunks` reads or
writes and the claims mention (`id` is the auto primary key, `code` the
generated UUID).  Carried-along metadata (album, subject, author, level,
remark, mime, relationships) does not affect any claim and is omitted. -/
structure FileRec where
  id : Nat
  code : String
  md5 : String
  name : String
  size : Nat
  status : String
  thumbnailAddr : Option String
  chunks : List String
deriving DecidableEq

/-- Database table plus the storage directory, plus the next auto id. -/
structure MergeState where
  db : List FileRec
  files : List (String × MFile)
  nextId : Nat
deriving DecidableEq

def getFile (files : List (String × MFile)) (name : String) : Option MFile :=
  (files.find? (fun p => p.1 == name)).map (fun p => p.2)

/-- `open(path, 'wb')` / `'w'`: truncate if present, create otherwise. -/
def setFile (files : List (String × MFile)) (name : String) (c : MFile) :
    List (String × MFile) :=
  if (files.find? (fun p => p.1 == name)).isSome then
    files.map (fun p => if p.1 == name then (name, c) else p)
  else files ++ [(name, c)]

/-- `os.remove(path)`. -/
def removeFile (files : List (String × MFile)) (name : String) :
    List (String × MFile) :=
  files.filter (fun p => !(p.1 == name))

/-- The request body of `merge_chunks`: declared md5, file name and size,
the declared chunk list as `(chunk_index, chunk_uuid)` pairs, the
`generate_thumbnail` flag, and the decoded bytes of `thumbnail_base64`
(`none` models an absent or empty value). -/
structure MergeReq where
  file_md5 : String
  file_name : String
  file_size : Nat
  chunks_info : List (Int × String)
  generate_thumbnail : Bool
  thumbnail : Option (List Nat)

structure MergeResp where
  success : Bool
  message : String
  file_id : Option Nat
  file_code : Option String
  exists_flag : Bool
deriving DecidableEq

/-- The merge loop of `merge_chunks` (fs/api.py lines 690-702): append each
declared chunk's bytes to the merged output file; a missing chunk aborts
with an error, leaving the partially merged output on disk (the `with`
block closes the file; nothing deletes it on this path). -/
def mergeChunksLoop (files : List (String × MFile)) :
    List (Int × String) → List Nat → List String →
    Except (String × List Nat) (List Nat × List String)
  | [], content, uuids => .ok (content, uuids)
  | (_, u) :: rest, content, uuids =>
    match getFile files u with
    | some (.bin b) => mergeChunksLoop files rest (content ++ b) (uuids ++ [u])
    | some (.txt s) =>
      mergeChunksLoop files rest (content ++ s.data.map Char.toNat) (uuids ++ [u])
    | none => .error (u, content)

/-- `merge_chunks` (fs/api.py lines 634-882).  `md5fn` is the MD5 digest as
an opaque hex-string function; `secret` the Django secret key bytes;
`thumbUuid`/`newCode` the `uuid.uuid4()` draws for the thumbnail filename
and the new record's code.  Directory creation, category/tag
relationships, and the backend `generate_thumbnail` fallback (image/video
decoding through external libraries) are outside the embedding; the
backend-thumbnail `elif` branch is modelled as writing nothing (its
failure/`None` path), and the claims are settled on requests that do not
reach it. -/
def merge_chunks (md5fn : List Nat → String) (secret : List Nat)
    (thumbUuid newCode : String) (st : MergeState) (req : MergeReq) :
    MergeState × MergeResp :=
  if req.file_md5 = "" ∨ req.file_name = "" ∨ req.chunks_info = [] then
    (st, ⟨false, "缺少必要参数", none, none, false⟩)
  else
    match st.db.find? (fun r => r.md5 == req.file_md5) with
    | some r => (st, ⟨true, "文件已存在", some r.id, some r.code, true⟩)
    | none =>
      let sortedChunks := AllUtils.pySorted (fun a b => decide (a.1 ≤ b.1)) req.chunks_info
      match mergeChunksLoop st.files sortedChunks [] [] with
      | .error (u, content) =>
        ({ st with files := setFile st.files req.file_name (.bin content) },
          ⟨false, "分片 " ++ u ++ " 不存在", none, none, false⟩)
      | .ok (content, uuids) =>
        let files1 := setFile st.files req.file_name (.bin content)
        if md5fn content ≠ req.file_md5 then
          ({ st with files := removeFile files1 req.file_name },
            ⟨false, "MD5校验失败", none, none, false⟩)
        else
          let files2 := removeFile files1 req.file_name
          let thumbName := "thumb_" ++ thumbUuid ++ ".enc"
          let files3 :=
            match req.thumbnail, req.generate_thumbnail with
            | some tb, true => setFile files2 thumbName (.txt (encrypt_data secret tb))
            | _, _ => files2
          let thumbRef : Option String :=
            match req.thumbnail, req.generate_thumbnail with
            | some _, true => some thumbName
            | _, _ => none
          let rec1 : FileRec :=
            { id := st.nextId, code := newCode, md5 := req.file_md5,
              name := req.file_name, size := req.file_size, status := "enable",
              thumbnailAddr := thumbRef, chunks := uuids }
          ({ db := st.db ++ [rec1], files := files3, nextId := st.nextId + 1 },
            ⟨true, "文件上传成功", some st.nextId, some newCode, false⟩)

theorem find?_none_all_false {files : List (String × MFile)} {name : String}
    (h : files.find? (fun p => p.1 == name) = none) :
    ∀ p ∈ files, (p.1 == name) = false := by
  intro p hp
  have := List.find?_eq_none.mp h p hp
  simpa using this

theorem removeFile_setFile_fresh (files : List (String × MFile)) (name : String)
    (c : MFile) (h : getFile files name = none) :
    removeFile (setFile files name c) name = files := by
  have hfind : files.find? (fun p => p.1 == name) = none := by
    unfold getFile at h
    cases hf : files.find? (fun p => p.1 == name) with
    | none => rfl
    | some p => rw [hf] at h; simp at h
  have hall := find?_none_all_false hfind
  unfold setFile removeFile
  rw [hfind]
  simp only [Option.isSome_none, Bool.false_eq_true, if_false]
  rw [List.filter_append]
  have h1 : files.filter (fun p => !(p.1 == name)) = files := by
    rw [List.filter_eq_self]
    intro p hp
    simp [hall p hp]
  have h2 : ([(name, c)] : List (String × MFile)).filter (fun p => !(p.1 == name)) = [] := by
    simp
  rw [h1, h2, List.append_nil]

theorem setFile_fresh (files : List (String × MFile)) (name : String) (c : MFile)
    (h : getFile files name = none) :
    setFile files name c = files ++ [(name, c)] := by
  have hfind : files.find? (fun p => p.1 == name) = none := by
    unfold getFile at h
    cases hf : files.find? (fun p => p.1 == name) with
    | none => rfl
    | some p => rw [hf] at h; simp at h
  unfold setFile
  rw [hfind]
  simp

end FsApi

/-- C7: if a `FileInfo` record with the caller-declared md5 already exists,
`merge_chunks` short-circuits: it returns success with `exists=true` and
the existing record's id and code, and the state — database and files — is
returned unchanged.  In particular a second submission of a payload with a
hash registered by a first submission returns the first's record. -/
theorem c7_dedup_short_circuit (md5fn : List Nat → String) (secret : List Nat)
    (thumbUuid newCode : String) (st : FsApi.MergeState) (req : FsApi.MergeReq)
    (r : FsApi.FileRec)
    (hv : ¬(req.file_md5 = "" ∨ req.file_name = "" ∨ req.chunks_info = []))
    (hfind : st.db.find? (fun rec2 => rec2.md5 == req.file_md5) = some r) :
    FsApi.merge_chunks md5fn secret thumbUuid newCode st req =
      (st, ⟨true, "文件已存在", some r.id, some r.code, true⟩) := by
  unfold FsApi.merge_chunks
  rw [if_neg hv, hfind]

namespace FsApi

/-- State and request used by the C7 witness: the database already holds a
record with hash `h1`. -/
def dedupRec : FileRec :=
  { id := 11, code := "abc", md5 := "h1", name := "a.png", size := 3,
    status := "enable", thumbnailAddr := none, chunks := ["u0"] }

def dedupState : MergeState :=
  { db := [dedupRec], files := [("u0", .bin [1, 2, 3])], nextId := 12 }

def dedupReq : MergeReq :=
  { file_md5 := "h1", file_name := "b.png", file_size := 3,
    chunks_info := [((0 : Int), "u9")], generate_thumbnail := true,
    thumbnail := none }

end FsApi

/-- Witness for C7 at a concrete pre-registered state. -/
theorem c7_dedup_short_circuit_witness :
    FsApi.merge_chunks (fun _ => "h1") [7] "t" "newcode" FsApi.dedupState FsApi.dedupReq =
      (FsApi.dedupState, ⟨true, "文件已存在", some 11, some "abc", true⟩) :=
  c7_dedup_short_circuit (fun _ => "h1") [7] "t" "newcode" FsApi.dedupState FsApi.dedupReq
    FsApi.dedupRec (by decide) (by decide)

/-- C8: when the MD5 computed over the merged bytes differs from the
declared `file_md5`, `merge_chunks` rejects the upload and the state is
returned exactly unchanged: the merged artifact (written under
`file_name`) is deleted again, every per-piece chunk file is intact, and no
`FileInfo` record is created. -/
theorem c8_hash_mismatch_atomic (md5fn : List Nat → String) (secret : List Nat)
    (thumbUuid newCode : String) (st : FsApi.MergeState) (req : FsApi.MergeReq)
    (content : List Nat) (uuids : List String)
    (hv : ¬(req.file_md5 = "" ∨ req.file_name = "" ∨ req.chunks_info = []))
    (hnodup : st.db.find? (fun r => r.md5 == req.file_md5) = none)
    (hloop : FsApi.mergeChunksLoop st.files
        (AllUtils.pySorted (fun a b => decide (a.1 ≤ b.1)) req.chunks_info) [] [] =
      .ok (content, uuids))
    (hmd5 : md5fn content ≠ req.file_md5)
    (hfresh : FsApi.getFile st.files req.file_name = none) :
    FsApi.merge_chunks md5fn secret thumbUuid newCode st req =
      (st, ⟨false, "MD5校验失败", none, none, false⟩) := by
  unfold FsApi.merge_chunks
  rw [if_neg hv, hnodup]
  simp only [hloop, hmd5, ne_eq, not_false_iff, if_true]
  rw [FsApi.removeFile_setFile_fresh st.files req.file_name (.bin content) hfresh]

namespace FsApi

/-- State and request used by the C8 witness: two uploaded chunk pieces,
declared out of order, whose merged hash will not match the declaration. -/
def mismatchState : MergeState :=
  { db := [], files := [("u1", .bin [65]), ("u2", .bin [66])], nextId := 1 }

def mismatchReq : MergeReq :=
  { file_md5 := "want", file_name := "out.bin", file_size := 2,
    chunks_info := [((1 : Int), "u2"), ((0 : Int), "u1")],
    generate_thumbnail := false, thumbnail := none }

end FsApi

/-- Witness for C8 at a concrete mismatching upload. -/
theorem c8_hash_mismatch_atomic_witness :
    FsApi.merge_chunks (fun _ => "other") [7] "t" "c" FsApi.mismatchState
      FsApi.mismatchReq =
      (FsApi.mismatchState, ⟨false, "MD5校验失败", none, none, false⟩) :=
  c8_hash_mismatch_atomic (fun _ => "other") [7] "t" "c" FsApi.mismatchState
    FsApi.mismatchReq [65, 66] ["u1", "u2"]
    (by decide) (by decide) (by rfl) (by decide) (by decide)


/-- C10: after a successful `merge_chunks` run (declared hash verified),
the merged full file `{storage_dir}/{file_name}` is deleted as well: the
final state keeps exactly the original files (the per-piece chunks and
anything else already present) plus, when a frontend thumbnail was supplied
and requested, one encrypted `thumb_{uuid}.enc` artifact — and no file
named `file_name` exists afterwards, so the complete payload is never
persisted as a single file.  One new record (status `enable`) is
registered.  The hypothesis `hnoback` keeps the request away from the
backend `generate_thumbnail` fallback, which decodes media through
external libraries and is outside the embedding. -/
theorem c10_merged_file_removed_on_success (md5fn : List Nat → String)
    (secret : List Nat) (thumbUuid newCode : String) (st : FsApi.MergeState)
    (req : FsApi.MergeReq) (content : List Nat) (uuids : List String)
    (hv : ¬(req.file_md5 = "" ∨ req.file_name = "" ∨ req.chunks_info = []))
    (hnodup : st.db.find? (fun r => r.md5 == req.file_md5) = none)
    (hloop : FsApi.mergeChunksLoop st.files
        (AllUtils.pySorted (fun a b => decide (a.1 ≤ b.1)) req.chunks_info) [] [] =
      .ok (content, uuids))
    (hmd5 : md5fn content = req.file_md5)
    (hfresh : FsApi.getFile st.files req.file_name = none)
    (hfreshThumb : FsApi.getFile st.files ("thumb_" ++ thumbUuid ++ ".enc") = none)
    (hname : req.file_name ≠ "thumb_" ++ thumbUuid ++ ".enc")
    (hnoback : req.thumbnail.isSome = true ∨ req.generate_thumbnail = false) :
    FsApi.merge_chunks md5fn secret thumbUuid newCode st req =
      ({ db := st.db ++
            [{ id := st.nextId, code := newCode, md5 := req.file_md5,
               name := req.file_name, size := req.file_size, status := "enable",
               thumbnailAddr :=
                 (match req.thumbnail, req.generate_thumbnail with
                  | some _, true => some ("thumb_" ++ thumbUuid ++ ".enc")
                  | _, _ => none),
               chunks := uuids }],
          files := st.files ++
            (match req.thumbnail, req.generate_thumbnail with
             | some tb, true =>
               [("thumb_" ++ thumbUuid ++ ".enc", .txt (FsApi.encrypt_data secret tb))]
             | _, _ => []),
          nextId := st.nextId + 1 },
        ⟨true, "文件上传成功", some st.nextId, some newCode, false⟩) ∧
      FsApi.getFile
        (FsApi.merge_chunks md5fn secret thumbUuid newCode st req).1.files
        req.file_name = none := by
  have hfilesAll : ∀ p ∈ st.files, (p.1 == req.file_name) = false := by
    have hfind : st.files.find? (fun p => p.1 == req.file_name) = none := by
      unfold FsApi.getFile at hfresh
      cases hf : st.files.find? (fun p => p.1 == req.file_name) with
      | none => rfl
      | some p => rw [hf] at hfresh; simp at hfresh
    exact FsApi.find?_none_all_false hfind
  have hmain : FsApi.merge_chunks md5fn secret thumbUuid newCode st req =
      ({ db := st.db ++
            [{ id := st.nextId, code := newCode, md5 := req.file_md5,
               name := req.file_name, size := req.file_size, status := "enable",
               thumbnailAddr :=
                 (match req.thumbnail, req.generate_thumbnail with
                  | some _, true => some ("thumb_" ++ thumbUuid ++ ".enc")
                  | _, _ => none),
               chunks := uuids }],
          files := st.files ++
            (match req.thumbnail, req.generate_thumbnail with
             | some tb, true =>
               [("thumb_" ++ thumbUuid ++ ".enc", .txt (FsApi.encrypt_data secret tb))]
             | _, _ => []),
          nextId := st.nextId + 1 },
        ⟨true, "文件上传成功", some st.nextId, some newCode, false⟩) := by
    unfold FsApi.merge_chunks
    rw [if_neg hv, hnodup]
    simp only [hloop, hmd5, ne_eq, not_true_eq_false, if_false]
    rw [FsApi.removeFile_setFile_fresh st.files req.file_name (.bin content) hfresh]
    rcases hth : req.thumbnail with _ | tb <;> rcases hgen : req.generate_thumbnail
    · simp
    · simp
    · simp
    · simp only [FsApi.setFile_fresh st.files ("thumb_" ++ thumbUuid ++ ".enc")
        (.txt (FsApi.encrypt_data secret tb)) hfreshThumb]
  refine ⟨hmain, ?_⟩
  rw [hmain]
  show FsApi.getFile (st.files ++ _) req.file_name = none
  unfold FsApi.getFile
  rw [List.find?_eq_none.mpr]
  · rfl
  · intro p hp
    rcases List.mem_append.mp hp with hp1 | hp2
    · simp [hfilesAll p hp1]
    · rcases hth : req.thumbnail with _ | tb <;> rcases hgen : req.generate_thumbnail <;>
        rw [hth, hgen] at hp2
      · simp at hp2
      · simp at hp2
      · simp at hp2
      · simp only [List.mem_singleton] at hp2
        subst hp2
        simp only [beq_iff_eq]
        intro h
        exact hname h.symm

namespace FsApi

/-- State and request used by the C10 witness: one uploaded chunk, a
matching declared hash, and a frontend thumbnail to encrypt. -/
def uploadState : MergeState :=
  { db := [], files := [("u1", .bin [65])], nextId := 5 }

def uploadReq : MergeReq :=
  { file_md5 := "w", file_name := "merged.png", file_size := 1,
    chunks_info := [((0 : Int), "u1")], generate_thumbnail := true,
    thumbnail := some [1] }

end FsApi

namespace FsApi

/-- The record the C10 witness expects to be created. -/
def uploadRec : FileRec :=
  { id := 5, code := "c", md5 := "w", name := "merged.png", size := 1,
    status := "enable", thumbnailAddr := some ("thumb_" ++ "t" ++ ".enc"),
    chunks := ["u1"] }

end FsApi

/-- Witness for C10 at a concrete successful upload. -/
theorem c10_merged_file_removed_on_success_witness :
    FsApi.merge_chunks (fun _ => "w") [9] "t" "c" FsApi.uploadState FsApi.uploadReq =
      ({ db := [FsApi.uploadRec],
          files := [("u1", FsApi.MFile.bin [65])] ++
            [("thumb_" ++ "t" ++ ".enc", .txt (FsApi.encrypt_data [9] [1]))],
          nextId := 6 },
        ⟨true, "文件上传成功", some 5, some "c", false⟩) ∧
      FsApi.getFile
        (FsApi.merge_chunks (fun _ => "w") [9] "t" "c" FsApi.uploadState
          FsApi.uploadReq).1.files "merged.png" = none :=
  c10_merged_file_removed_on_success (fun _ => "w") [9] "t" "c" FsApi.uploadState
    FsApi.uploadReq [65] ["u1"] (by decide) (by decide) (by rfl) (by rfl)
    (by decide) (by decide) (by decide) (by decide)
